import Mathlib

set_option maxHeartbeats 1000000

namespace HL

/-- A categorized span of the input, mirroring the objects `{ text, type }`
manipulated by `highlightTypeScript` in `src/script.js`. -/
structure Segment where
  text : List Char
  type : String
deriving DecidableEq, Repr

/-- A lexical rule, mirroring an element `{ regex, type }` of
`highlightPatterns`. The JavaScript regex is embedded as its `exec` search
function: `regex s li` returns the start position and length of the first
match of the pattern in `s` at or after position `li` (the regex's
`lastIndex`), or `none` when there is no such match. -/
structure Pattern where
  regex : List Char → Nat → Option (Nat × Nat)
  type : String

/-- JavaScript word character `\w`, that is `[A-Za-z0-9_]`. -/
def isWordChar (c : Char) : Bool := c.isAlpha || c.isDigit || c == '_'

/-- Whether the character just before position `i` exists and is a word
character (used for the `\b` assertions). -/
def wordBefore (s : List Char) : Nat → Bool
  | 0 => false
  | i + 1 =>
    match s[i]? with
    | some c => isWordChar c
    | none => false

/-- Whether the list is nonempty and starts with a word character. -/
def wordHeadB : List Char → Bool
  | [] => false
  | c :: _ => isWordChar c

/-- JavaScript `.` without the `s` flag: any character except a line
terminator. -/
def notLineTerm (c : Char) : Bool :=
  !(c == '\n' || c == '\r' || c == '\u2028' || c == '\u2029')

/-- Start index of the first occurrence of `*/` in the list, if any; models
the lazy body `[\s\S]*?` of the block-comment alternative, which stops at the
first closing `*/`. -/
def closeIdx : List Char → Option Nat
  | '*' :: '/' :: _ => some 0
  | _ :: rest => (closeIdx rest).map (· + 1)
  | [] => none

/-- Match length of the comment rule `(\/\*[\s\S]*?\*\/|\/\/.*)` attempted at
position `i`; `none` when the rule cannot match there.  A `/*` with no closing
`*/` fails, and the line-comment alternative cannot apply at that position
either since its second character is `*`. -/
def commentAttempt (s : List Char) (i : Nat) : Option Nat :=
  match s.drop i with
  | '/' :: '*' :: rest =>
    match closeIdx rest with
    | some k => some (k + 4)
    | none => none
  | '/' :: '/' :: rest => some (2 + (rest.takeWhile notLineTerm).length)
  | _ => none

/-- One of the three quote characters of the string rule. -/
def isQuote (c : Char) : Bool := c == '\x22' || c == '\x27' || c == '\x60'

/-- Characters consumed by the string-rule body, a run of `\\.` (escape pair)
or of any single character other than a backslash or the opening quote `q`,
up to the closing `q`; returns the body length excluding the closing quote,
`none` when the quote is never closed.  Both alternatives of the body are
mutually exclusive at every position, so the greedy scan is deterministic. -/
def stringBody (q : Char) : List Char → Option Nat
  | '\\' :: c :: rest =>
    if notLineTerm c then (stringBody q rest).map (· + 2) else none
  | c :: rest =>
    if c == q then some 0
    else if c == '\\' then none
    else (stringBody q rest).map (· + 1)
  | [] => none

/-- Match length of the string rule at position `i`: an opening quote, a body,
and the matching closing quote. -/
def stringAttempt (s : List Char) (i : Nat) : Option Nat :=
  match s.drop i with
  | c :: rest => if isQuote c then (stringBody c rest).map (· + 2) else none
  | [] => none

/-- Match length of the number rule `\b\d+(?:\.\d+)?\b` at position `i`,
including the backtracking fallback: when the trailing boundary fails right
after a fractional part, the optional group is dropped and the match ends at
the `.` (which is itself a word boundary). -/
def numberAttempt (s : List Char) (i : Nat) : Option Nat :=
  if wordBefore s i then none
  else
    let rest := s.drop i
    let d := (rest.takeWhile Char.isDigit).length
    if d = 0 then none
    else
      match rest.drop d with
      | '.' :: a2 =>
        let d2 := (a2.takeWhile Char.isDigit).length
        if d2 = 0 then some d
        else if wordHeadB (a2.drop d2) then some d
        else some (d + 1 + d2)
      | after => if wordHeadB after then none else some d

/-- Match length at `i` of a rule of the form `\b(w1|w2|...)\b` for word
alternatives `ws`: the alternatives are tried in order, and one that matches
but is followed by a word character is rejected (its trailing `\b` fails), as
regex alternation with backtracking does. -/
def wordListAttempt (ws : List (List Char)) (s : List Char) (i : Nat) : Option Nat :=
  if wordBefore s i then none
  else
    match ws.find? (fun w =>
        w.isPrefixOf (s.drop i) && !wordHeadB ((s.drop i).drop w.length)) with
    | some w => some w.length
    | none => none

/-- The keyword alternatives of the keyword rule, in source order. -/
def keywordWords : List (List Char) :=
  ["async", "await", "break", "case", "catch", "class", "const", "continue",
   "default", "delete", "do", "else", "enum", "export", "extends", "finally",
   "for", "from", "function", "if", "implements", "import", "in", "instanceof",
   "interface", "let", "new", "of", "private", "protected", "public", "return",
   "static", "switch", "throw", "try", "type", "typeof", "var", "while", "with",
   "yield"].map String.toList

/-- The word alternatives of the type rule, in source order. -/
def typeWords : List (List Char) :=
  ["string", "number", "boolean", "void", "any", "unknown", "never", "Record",
   "Partial", "Pick", "Omit", "Map", "Set", "Promise", "Array"].map String.toList

/-- The word alternatives of the literal rule, in source order. -/
def literalWords : List (List Char) :=
  ["true", "false", "null", "undefined", "this", "super"].map String.toList

/-- Match length of the decorator rule `@[a-zA-Z_][\w]*` at position `i`. -/
def decoratorAttempt (s : List Char) (i : Nat) : Option Nat :=
  match s.drop i with
  | '@' :: c :: rest =>
    if c.isAlpha || c == '_' then some (2 + (rest.takeWhile isWordChar).length)
    else none
  | _ => none

/-- Match length of the class rule `\b[A-Z][A-Za-z0-9_]*\b` at position `i`;
the trailing boundary holds automatically at the end of a maximal run of word
characters. -/
def classAttempt (s : List Char) (i : Nat) : Option Nat :=
  if wordBefore s i then none
  else
    match s.drop i with
    | c :: rest =>
      if c.isUpper then some (1 + (rest.takeWhile isWordChar).length) else none
    | [] => none

/-- Scan positions `i, i + 1, ...` (for `r` attempts) for the first position
where `att` yields a match, as a global regex `exec` does from `lastIndex`. -/
def scanFindAux (att : Nat → Option Nat) : Nat → Nat → Option (Nat × Nat)
  | _, 0 => none
  | i, r + 1 =>
    match att i with
    | some k => some (i, k)
    | none => scanFindAux att (i + 1) r

/-- The `exec` search function of a regex given by its per-position match
attempt: the leftmost match starting at or after `li`. -/
def findOf (att : List Char → Nat → Option Nat) (s : List Char) (li : Nat) :
    Option (Nat × Nat) :=
  scanFindAux (att s) li (s.length + 1 - li)

/-- The rule table `highlightPatterns` of `src/script.js`, with each regular
expression embedded as its `exec` search function. -/
def highlightPatterns : List Pattern :=
  [⟨findOf commentAttempt, "comment"⟩,
   ⟨findOf stringAttempt, "string"⟩,
   ⟨findOf numberAttempt, "number"⟩,
   ⟨findOf (wordListAttempt keywordWords), "keyword"⟩,
   ⟨findOf (wordListAttempt typeWords), "type"⟩,
   ⟨findOf (wordListAttempt literalWords), "literal"⟩,
   ⟨findOf decoratorAttempt, "decorator"⟩,
   ⟨findOf classAttempt, "class"⟩]

/-- The match-collection loop of `applyPattern`
(`while ((match = pattern.regex.exec(segment.text)))`), with explicit fuel:
`none` models a loop that never terminates, which happens exactly when a match
of width zero leaves `lastIndex` where it was. -/
def execLoopAux (f : List Char → Nat → Option (Nat × Nat)) (s : List Char) :
    Nat → Nat → Option (List (Nat × Nat))
  | 0, _ => none
  | fuel + 1, li =>
    match f s li with
    | none => some []
    | some (st, len) =>
      (execLoopAux f s fuel (st + len)).map (fun ms => (st, len) :: ms)

/-- All matches collected by the exec loop from `lastIndex = 0`.  Fuel
`s.length + 1` is exactly enough for every terminating JavaScript run: each
successful `exec` of a terminating run strictly advances `lastIndex`, which
stays at most `s.length`. -/
def execMatches (f : List Char → Nat → Option (Nat × Nat)) (s : List Char) :
    Option (List (Nat × Nat)) :=
  execLoopAux f s (s.length + 1) 0

/-- JavaScript `String.prototype.slice(a, b)` on a character list, for the
in-range indices used by `applyPattern`. -/
def listSlice (s : List Char) (a b : Nat) : List Char := (s.drop a).take (b - a)

/-- The `replacement` array built by `applyPattern` from the collected
matches: an unmatched gap before a match stays `plain`, each matched span
takes the rule's category, and a trailing unmatched gap stays `plain`.  The
text of a match is the corresponding slice of the segment text, exactly as
`match[0]` is. -/
def buildRepl (s : List Char) (ty : String) : List (Nat × Nat) → Nat → List Segment
  | [], cursor =>
    if cursor < s.length then [⟨listSlice s cursor s.length, "plain"⟩] else []
  | (st, len) :: ms, cursor =>
    (if cursor < st then [⟨listSlice s cursor st, "plain"⟩] else [])
      ++ ⟨listSlice s st (st + len), ty⟩ :: buildRepl s ty ms (st + len)

/-- The body of `applyPattern` in `src/script.js`: a `for` loop over the
mutable `segments` array that skips non-`plain` segments, skips `plain`
segments without matches, and otherwise splices the replacement in place and
jumps the index past it (`i += replacement.length - 1` plus the loop
increment).  A `none` from the exec loop propagates. -/
def applyPatternImpAux (p : Pattern) : Nat → List Segment → Nat → Option (List Segment)
  | 0, segs, _ => some segs
  | fuel + 1, segs, i =>
    if h : i < segs.length then
      let seg := segs[i]
      if seg.type ≠ "plain" then applyPatternImpAux p fuel segs (i + 1)
      else
        match execMatches p.regex seg.text with
        | none => none
        | some [] => applyPatternImpAux p fuel segs (i + 1)
        | some (m :: ms) =>
          let repl := buildRepl seg.text p.type (m :: ms) 0
          applyPatternImpAux p fuel (segs.take i ++ repl ++ segs.drop (i + 1))
            (i + repl.length)
    else some segs

/-- One full pass of `applyPattern` over the working sequence.  The quantity
`segs.length - i` shrinks by exactly one per loop iteration (a splice of `r`
replacement segments for one segment lengthens the array by `r - 1` and jumps
the index by `r`), so `segs.length` steps always complete the loop and the
fuel-exhausted case of the helper is never reached from here. -/
def applyPatternImp (p : Pattern) (segs : List Segment) : Option (List Segment) :=
  applyPatternImpAux p segs.length segs 0

/-- Expansion of one segment under one rule, as a fresh list: non-`plain`
segments pass through untouched, a `plain` segment with no matches is kept as
is, and a matched `plain` segment is replaced by its expansion.  This is the
reformulation proposed by the spec (design note on ownership), to be compared
with the in-place splicing pass. -/
def expandSeg (p : Pattern) (seg : Segment) : Option (List Segment) :=
  if seg.type ≠ "plain" then some [seg]
  else
    match execMatches p.regex seg.text with
    | none => none
    | some [] => some [seg]
    | some (m :: ms) => some (buildRepl seg.text p.type (m :: ms) 0)

/-- One rule application building a new output list per segment, the spec's
proposed pure reformulation of the splicing pass. -/
def applyPatternPure (p : Pattern) : List Segment → Option (List Segment)
  | [] => some []
  | seg :: rest =>
    match expandSeg p seg, applyPatternPure p rest with
    | some l, some r => some (l ++ r)
    | _, _ => none

/-- The `highlightPatterns.forEach((pattern) => applyPattern(pattern))` pass,
generalized over an arbitrary ordered rule set. -/
def runPatterns (ps : List Pattern) (segs : List Segment) :
    Option (List Segment) :=
  ps.foldlM (fun acc p => applyPatternImp p acc) segs

/-- The pure counterpart of `runPatterns`, folding the spec's fresh-list rule
application instead of the in-place one. -/
def runPatternsPure (ps : List Pattern) (segs : List Segment) :
    Option (List Segment) :=
  ps.foldlM (fun acc p => applyPatternPure p acc) segs

/-- Segment phase of `highlightTypeScript`: the working sequence starts as a
single `plain` segment spanning the whole input, then every rule is applied
in order. -/
def highlightSegments (code : List Char) : Option (List Segment) :=
  runPatterns highlightPatterns [⟨code, "plain"⟩]

/-- Global substring replacement: leftmost non-overlapping occurrences of the
nonempty needle `p0 :: ps` are replaced by `rep`, scanning left to right, as
`String.prototype.replace` with a global pattern does. -/
def replaceSubAux (p0 : Char) (ps rep : List Char) : Nat → List Char → List Char
  | _, [] => []
  | 0, l => l
  | fuel + 1, c :: rest =>
    if (p0 :: ps).isPrefixOf (c :: rest) then
      rep ++ replaceSubAux p0 ps rep fuel (rest.drop ps.length)
    else c :: replaceSubAux p0 ps rep fuel rest

/-- Global substring replacement, with the fuel of the helper instantiated to
the list length (the scan consumes at least one character per fuel unit, so
this fuel is always sufficient and the fuel-exhausted case is unreachable). -/
def replaceSub (p0 : Char) (ps rep : List Char) (l : List Char) : List Char :=
  replaceSubAux p0 ps rep l.length l

/-- The replacement text `&amp;` as characters. -/
def ampRep : List Char := ['&', 'a', 'm', 'p', ';']

/-- The replacement text `&lt;` as characters. -/
def ltRep : List Char := ['&', 'l', 't', ';']

/-- The replacement text `&gt;` as characters. -/
def gtRep : List Char := ['&', 'g', 't', ';']

/-- The `escapeHtml` helper of `src/script.js`: replace every `&`, then every
`<`, then every `>`. -/
def escapeHtml (v : List Char) : List Char :=
  replaceSub '>' [] gtRep (replaceSub '<' [] ltRep (replaceSub '&' [] ampRep v))

/-- Markup for one segment: plain text is emitted bare, any other category is
wrapped in a `span` bearing its category class. -/
def wrapTok (ty : String) (body : List Char) : List Char :=
  if ty = "plain" then body
  else "<span class=\x22token token-".toList ++ ty.toList ++ "\x22>".toList
    ++ body ++ "</span>".toList

/-- The per-segment step of the final `segments.map` in `highlightTypeScript`:
escape the text, then wrap it according to the category. -/
def renderSeg (seg : Segment) : List Char := wrapTok seg.type (escapeHtml seg.text)

/-- The full `highlightTypeScript` of `src/script.js`: segments, each mapped
to escaped markup, joined into the output string. -/
def highlightTypeScript (code : List Char) : Option (List Char) :=
  (highlightSegments code).map (fun segs => (segs.map renderSeg).flatten)

/-- The inverse substitutions of `escapeHtml`, applied in the order inverse to
escaping, as the spec's reversibility property prescribes. -/
def unescapeHtml (v : List Char) : List Char :=
  replaceSub '&' ['a', 'm', 'p', ';'] ['&']
    (replaceSub '&' ['l', 't', ';'] ['<']
      (replaceSub '&' ['g', 't', ';'] ['>'] v))

/-- The chain invariant of a match list: starting from cursor `c`, every match
starts at or after the cursor and ends within the `n`-character string, and
the matches are in order. -/
def Chained (n : Nat) : Nat → List (Nat × Nat) → Prop
  | c, [] => c ≤ n
  | c, (st, len) :: ms => c ≤ st ∧ st + len ≤ n ∧ Chained n (st + len) ms

/-- The positional guarantees every JavaScript regex `exec` call satisfies: a
reported match starts no earlier than `lastIndex` and lies within the
string. -/
def RegexBounds (f : List Char → Nat → Option (Nat × Nat)) : Prop :=
  ∀ s li st len, f s li = some (st, len) → li ≤ st ∧ st + len ≤ s.length

/-- The additional guarantee of a regex that can never match the empty
string: every reported match has positive width. -/
def RegexProgress (f : List Char → Nat → Option (Nat × Nat)) : Prop :=
  ∀ s li st len, f s li = some (st, len) → 1 ≤ len

/-- A well-formed embedded regex: reported matches respect positions and are
never empty. -/
def RegexWF (f : List Char → Nat → Option (Nat × Nat)) : Prop :=
  RegexBounds f ∧ RegexProgress f

/-- A sound per-position attempt: any reported match fits inside the string
and has positive length. -/
def AttemptWF (att : List Char → Nat → Option Nat) : Prop :=
  ∀ s i k, att s i = some k → i + k ≤ s.length ∧ 1 ≤ k

/-- The relation between a segment of a working sequence and the piece list
later rules refine it into: a non-`plain` segment is frozen, refined only
into exactly itself. -/
def FrozenPiece (seg : Segment) (piece : List Segment) : Prop :=
  seg.type ≠ "plain" → piece = [seg]

/-- Character-level view of escaping after the `&` pass alone. -/
def escCharAmp (c : Char) : List Char :=
  if c = '&' then ampRep else [c]

/-- Character-level view of escaping after the `&` and `<` passes. -/
def escCharAmpLt (c : Char) : List Char :=
  if c = '&' then ampRep else if c = '<' then ltRep else [c]

/-- Character-level view of the full escape. -/
def escChar (c : Char) : List Char :=
  if c = '&' then ampRep else if c = '<' then ltRep
  else if c = '>' then gtRep else [c]

/-- A regex that matches the empty string at every position, like `/(?:)/g`:
from any `lastIndex` inside the string, `exec` reports a zero-width match
right there and leaves `lastIndex` unchanged. -/
def emptyFind (s : List Char) (li : Nat) : Option (Nat × Nat) :=
  if li ≤ s.length then some (li, 0) else none

/-- A rule built from that zero-width regex. -/
def emptyPat : Pattern := ⟨emptyFind, "comment"⟩

/-- Divergence of the match-collection loop on a string, stated without
reference to any particular fuel: no amount of fuel completes it. -/
def execDiverges (f : List Char → Nat → Option (Nat × Nat)) (s : List Char) : Prop :=
  ∀ fuel : Nat, execLoopAux f s fuel 0 = none

/-! ### Basic properties of slices and replacements -/

theorem listSlice_append (s : List Char) {a b c : Nat} (hab : a ≤ b) (hbc : b ≤ c) :
    listSlice s a b ++ listSlice s b c = listSlice s a c := by
  unfold listSlice
  have hdrop : s.drop b = (s.drop a).drop (b - a) := by
    rw [List.drop_drop]
    congr 1
    omega
  rw [hdrop]
  have : c - a = (b - a) + (c - b) := by omega
  rw [this, List.take_add]

theorem listSlice_zero_length (s : List Char) : listSlice s 0 s.length = s := by
  simp [listSlice]

theorem listSlice_length (s : List Char) (a b : Nat) :
    (listSlice s a b).length = min (b - a) (s.length - a) := by
  simp [listSlice]

/-- Concatenating the texts of a replacement list rebuilds the slice of the
segment from the cursor to its end. -/
theorem buildRepl_text (s : List Char) (ty : String) :
    ∀ (ms : List (Nat × Nat)) (cursor : Nat), Chained s.length cursor ms →
    ((buildRepl s ty ms cursor).map Segment.text).flatten = listSlice s cursor s.length
  | [], cursor, hch => by
    unfold buildRepl
    by_cases h : cursor < s.length <;> simp [h, listSlice]
    omega
  | (st, len) :: ms, cursor, hch => by
    obtain ⟨h1, h2, h3⟩ := hch
    have ih := buildRepl_text s ty ms (st + len) h3
    unfold buildRepl
    by_cases h : cursor < st <;>
      simp only [h, if_pos, if_true, if_false, List.map_append, List.map_cons,
        List.flatten_append, List.flatten_cons, List.nil_append, ite_true, ite_false,
        List.map_nil, List.flatten_nil, ih]
    · rw [List.append_nil, listSlice_append s (by omega) (by omega),
        listSlice_append s (by omega) (by omega)]
    · have : cursor = st := by omega
      subst this
      rw [listSlice_append s (by omega) (by omega)]

/-! ### The exec loop under the guarantees real regexes give -/

/-- Whatever the fuel, a match list delivered by the exec loop is chained
from its starting `lastIndex`. -/
theorem execLoopAux_chained {f : List Char → Nat → Option (Nat × Nat)}
    (hf : RegexBounds f) (s : List Char) :
    ∀ (fuel li : Nat) (ms : List (Nat × Nat)), li ≤ s.length →
      execLoopAux f s fuel li = some ms → Chained s.length li ms := by
  intro fuel
  induction fuel with
  | zero => intro li ms _ h; exact absurd h (by simp [execLoopAux])
  | succ fuel ih =>
    intro li ms hli h
    rw [execLoopAux] at h
    cases hfind : f s li with
    | none =>
      rw [hfind] at h
      cases h
      exact hli
    | some m =>
      obtain ⟨st, len⟩ := m
      rw [hfind] at h
      obtain ⟨ms', hms', rfl⟩ := Option.map_eq_some'.mp h
      obtain ⟨h1, h2⟩ := hf s li st len hfind
      exact ⟨h1, h2, ih (st + len) ms' h2 hms'⟩

/-- Every match reported inside an exec-loop result has positive width when
the regex cannot match the empty string. -/
theorem execLoopAux_progress {f : List Char → Nat → Option (Nat × Nat)}
    (hf : RegexProgress f) (s : List Char) :
    ∀ (fuel li : Nat) (ms : List (Nat × Nat)),
      execLoopAux f s fuel li = some ms → ∀ m ∈ ms, 1 ≤ m.2 := by
  intro fuel
  induction fuel with
  | zero => intro li ms h; exact absurd h (by simp [execLoopAux])
  | succ fuel ih =>
    intro li ms h
    rw [execLoopAux] at h
    cases hfind : f s li with
    | none => rw [hfind] at h; cases h; intro m hm; cases hm
    | some m =>
      obtain ⟨st, len⟩ := m
      rw [hfind] at h
      obtain ⟨ms', hms', rfl⟩ := Option.map_eq_some'.mp h
      intro x hx
      rcases List.mem_cons.mp hx with rfl | hx
      · exact hf s li st len hfind
      · exact ih (st + len) ms' hms' x hx

/-- With bounds and progress, the canonical fuel `s.length + 1` always
suffices: the exec loop terminates on every input. -/
theorem execLoopAux_isSome {f : List Char → Nat → Option (Nat × Nat)}
    (hb : RegexBounds f) (hp : RegexProgress f) (s : List Char) :
    ∀ (fuel li : Nat), li ≤ s.length → s.length + 1 ≤ li + fuel →
      (execLoopAux f s fuel li).isSome := by
  intro fuel
  induction fuel with
  | zero => intro li h1 h2; omega
  | succ fuel ih =>
    intro li hli hfuel
    rw [execLoopAux]
    cases hfind : f s li with
    | none => simp
    | some m =>
      obtain ⟨st, len⟩ := m
      have h1 := hb s li st len hfind
      have h2 := hp s li st len hfind
      have := ih (st + len) (by omega) (by omega)
      simpa using this

/-- Concatenating the text of the fresh expansion of a segment gives back the
segment's text. -/
theorem expandSeg_text {p : Pattern} (hb : RegexBounds p.regex)
    {seg : Segment} {out : List Segment} (h : expandSeg p seg = some out) :
    (out.map Segment.text).flatten = seg.text := by
  unfold expandSeg at h
  by_cases hty : seg.type = "plain"
  · rw [if_neg (by simp [hty])] at h
    cases hms : execMatches p.regex seg.text with
    | none => rw [hms] at h; cases h
    | some ms =>
      rw [hms] at h
      match ms, h with
      | [], h => cases h; simp
      | m :: ms, h =>
        cases h
        have hch := execLoopAux_chained hb seg.text (seg.text.length + 1) 0 _
          (Nat.zero_le _) hms
        rw [buildRepl_text seg.text p.type (m :: ms) 0 hch, listSlice_zero_length]
  · rw [if_pos hty] at h
    cases h
    simp

/-! ### The in-place splicing pass equals the fresh-list pass -/

/-- Processing the tail `rest` of `done ++ rest` in place, starting at index
`done.length`, is the same as expanding `rest` into a fresh list and
appending it to `done`.  The fuel only needs to cover `rest`. -/
theorem applyPatternImpAux_eq (p : Pattern) :
    ∀ (fuel : Nat) (done rest : List Segment), rest.length ≤ fuel →
    applyPatternImpAux p fuel (done ++ rest) done.length =
      (applyPatternPure p rest).map (done ++ ·) := by
  intro fuel
  induction fuel with
  | zero =>
    intro done rest hle
    have : rest = [] := List.eq_nil_of_length_eq_zero (by omega)
    subst this
    simp [applyPatternImpAux, applyPatternPure]
  | succ fuel ih =>
    intro done rest hle
    match rest with
    | [] =>
      rw [applyPatternImpAux]
      rw [dif_neg (by simp)]
      simp [applyPatternPure]
    | seg :: rest =>
      have hlt : done.length < (done ++ seg :: rest).length := by
        simp [List.length_append]
      rw [applyPatternImpAux, dif_pos hlt]
      have hget : (done ++ seg :: rest)[done.length] = seg :=
        List.getElem_of_append rfl rfl
      simp only [hget]
      have hsplit : done ++ seg :: rest = (done ++ [seg]) ++ rest := by simp
      have hlen1 : done.length + 1 = (done ++ [seg]).length := by simp
      by_cases hty : seg.type = "plain"
      · rw [if_neg (by simp [hty])]
        cases hms : execMatches p.regex seg.text with
        | none =>
          have hexp : expandSeg p seg = none := by
            unfold expandSeg
            rw [if_neg (by simp [hty]), hms]
          simp [applyPatternPure, hexp]
        | some ms =>
          match ms with
          | [] =>
            dsimp only
            have hexp : expandSeg p seg = some [seg] := by
              unfold expandSeg
              rw [if_neg (by simp [hty]), hms]
            rw [hsplit, hlen1, ih (done ++ [seg]) rest (by simpa using hle)]
            cases hrest : applyPatternPure p rest <;>
              simp [applyPatternPure, hexp, hrest]
          | m :: ms =>
            dsimp only
            have hexp : expandSeg p seg =
                some (buildRepl seg.text p.type (m :: ms) 0) := by
              unfold expandSeg
              rw [if_neg (by simp [hty]), hms]
            have htake : (done ++ seg :: rest).take done.length = done :=
              List.take_left done (seg :: rest)
            have hdrop : (done ++ seg :: rest).drop (done.length + 1) = rest := by
              rw [hsplit, hlen1]
              exact List.drop_left (done ++ [seg]) rest
            have hidx : done.length + (buildRepl seg.text p.type (m :: ms) 0).length =
                (done ++ buildRepl seg.text p.type (m :: ms) 0).length := by simp
            rw [htake, hdrop, hidx,
              ih (done ++ buildRepl seg.text p.type (m :: ms) 0) rest (by simpa using hle)]
            cases hrest : applyPatternPure p rest <;>
              simp [applyPatternPure, hexp, hrest]
      · rw [if_pos hty]
        have hexp : expandSeg p seg = some [seg] := by
          unfold expandSeg
          rw [if_pos hty]
        rw [hsplit, hlen1, ih (done ++ [seg]) rest (by simpa using hle)]
        cases hrest : applyPatternPure p rest <;>
          simp [applyPatternPure, hexp, hrest]

/-- One pass of the in-place `applyPattern` equals one pass of the
fresh-list reformulation. -/
theorem applyPatternImp_eq_pure (p : Pattern) (segs : List Segment) :
    applyPatternImp p segs = applyPatternPure p segs := by
  have := applyPatternImpAux_eq p segs.length [] segs (le_refl _)
  simpa [applyPatternImp] using this

/-- The whole rule pass agrees between the two formulations. -/
theorem runPatterns_eq_pure (ps : List Pattern) (segs : List Segment) :
    runPatterns ps segs = runPatternsPure ps segs := by
  unfold runPatterns runPatternsPure
  simp only [applyPatternImp_eq_pure]

/-! ### Coverage: the segments always concatenate back to the input -/

/-- A fresh-list pass preserves the concatenated text of the working
sequence. -/
theorem applyPatternPure_text {p : Pattern} (hb : RegexBounds p.regex) :
    ∀ {segs out : List Segment}, applyPatternPure p segs = some out →
    (out.map Segment.text).flatten = (segs.map Segment.text).flatten := by
  intro segs
  induction segs with
  | nil => intro out h; cases h; rfl
  | cons seg rest ih =>
    intro out h
    rw [applyPatternPure] at h
    cases hexp : expandSeg p seg with
    | none => rw [hexp] at h; cases h
    | some l =>
      rw [hexp] at h
      cases hrest : applyPatternPure p rest with
      | none => rw [hrest] at h; cases h
      | some r =>
        rw [hrest] at h
        cases h
        simp only [List.map_append, List.flatten_append, List.map_cons,
          List.flatten_cons]
        rw [expandSeg_text hb hexp, ih hrest]

/-- Running any list of bounds-respecting rules preserves the concatenated
text of the working sequence. -/
theorem runPatterns_text :
    ∀ {ps : List Pattern}, (∀ p ∈ ps, RegexBounds p.regex) →
    ∀ {segs out : List Segment}, runPatterns ps segs = some out →
    (out.map Segment.text).flatten = (segs.map Segment.text).flatten := by
  intro ps
  induction ps with
  | nil => intro _ segs out h; cases h; rfl
  | cons p ps ih =>
    intro hwf segs out h
    rw [runPatterns_eq_pure] at h
    rw [runPatternsPure, List.foldlM_cons] at h
    cases hstep : applyPatternPure p segs with
    | none => rw [hstep] at h; cases h
    | some segs2 =>
      rw [hstep] at h
      have h2 : runPatterns ps segs2 = some out := by
        rw [runPatterns_eq_pure, runPatternsPure]
        exact h
      rw [ih (fun q hq => hwf q (List.mem_cons_of_mem p hq)) h2]
      exact applyPatternPure_text (hwf p (List.mem_cons_self p ps)) hstep

/-! ### Freezing: non-plain segments are never re-scanned or split -/

theorem forall₂_append_split {α β : Type} {R : α → β → Prop} :
    ∀ {l₁ l₂ : List α} {l : List β}, List.Forall₂ R (l₁ ++ l₂) l →
    ∃ m₁ m₂, l = m₁ ++ m₂ ∧ List.Forall₂ R l₁ m₁ ∧ List.Forall₂ R l₂ m₂ := by
  intro l₁
  induction l₁ with
  | nil => intro l₂ l h; exact ⟨[], l, rfl, List.Forall₂.nil, h⟩
  | cons a l₁ ih =>
    intro l₂ l h
    rw [List.cons_append] at h
    cases h with
    | cons hab h2 =>
      obtain ⟨m₁, m₂, rfl, hm₁, hm₂⟩ := ih h2
      exact ⟨_ :: m₁, m₂, rfl, List.Forall₂.cons hab hm₁, hm₂⟩

theorem frozen_refl : ∀ segs : List Segment,
    List.Forall₂ FrozenPiece segs (segs.map fun s => [s])
  | [] => List.Forall₂.nil
  | _ :: rest => List.Forall₂.cons (fun _ => rfl) (frozen_refl rest)

theorem flatten_map_singleton : ∀ segs : List Segment,
    (segs.map fun s => [s]).flatten = segs
  | [] => rfl
  | _ :: rest => by simp [flatten_map_singleton rest]

/-- One fresh-list pass refines each segment into a piece list, and leaves
every non-`plain` segment frozen. -/
theorem applyPatternPure_decomp (p : Pattern) :
    ∀ {segs out : List Segment}, applyPatternPure p segs = some out →
    ∃ pieces : List (List Segment), out = pieces.flatten ∧
      List.Forall₂ FrozenPiece segs pieces := by
  intro segs
  induction segs with
  | nil => intro out h; cases h; exact ⟨[], rfl, List.Forall₂.nil⟩
  | cons seg rest ih =>
    intro out h
    rw [applyPatternPure] at h
    cases hexp : expandSeg p seg with
    | none => rw [hexp] at h; cases h
    | some l =>
      rw [hexp] at h
      cases hrest : applyPatternPure p rest with
      | none => rw [hrest] at h; cases h
      | some r =>
        rw [hrest] at h
        cases h
        obtain ⟨pieces, rfl, hall⟩ := ih hrest
        refine ⟨l :: pieces, by simp, List.Forall₂.cons ?_ hall⟩
        intro hty
        rw [expandSeg, if_pos hty] at hexp
        cases hexp
        rfl

/-- Refinement by pieces composes transitively. -/
theorem frozen_trans :
    ∀ {segs : List Segment} {pieces1 : List (List Segment)},
      List.Forall₂ FrozenPiece segs pieces1 →
      ∀ {pieces2 : List (List Segment)},
        List.Forall₂ FrozenPiece pieces1.flatten pieces2 →
        ∃ pieces, pieces2.flatten = pieces.flatten ∧
          List.Forall₂ FrozenPiece segs pieces := by
  intro segs pieces1 h1
  induction h1 with
  | nil =>
    intro pieces2 h2
    cases h2
    exact ⟨[], rfl, List.Forall₂.nil⟩
  | cons hseg hrest ih =>
    intro pieces2 h2
    rw [List.flatten_cons] at h2
    obtain ⟨m₁, m₂, rfl, hm₁, hm₂⟩ := forall₂_append_split h2
    obtain ⟨pieces, heq, hall⟩ := ih hm₂
    refine ⟨m₁.flatten :: pieces, by simp [heq], List.Forall₂.cons ?_ hall⟩
    intro hty
    have hl := hseg hty
    subst hl
    cases hm₁ with
    | cons hpiece hnil =>
      cases hnil
      rw [hpiece hty]
      simp

/-- Running any later rules refines each segment of the working sequence into
consecutive pieces, and never splits or relabels a non-`plain` segment. -/
theorem runPatterns_decomp :
    ∀ {ps : List Pattern} {segs out : List Segment},
      runPatterns ps segs = some out →
      ∃ pieces : List (List Segment), out = pieces.flatten ∧
        List.Forall₂ FrozenPiece segs pieces := by
  intro ps
  induction ps with
  | nil =>
    intro segs out h
    cases h
    exact ⟨segs.map fun s => [s], (flatten_map_singleton segs).symm, frozen_refl segs⟩
  | cons p ps ih =>
    intro segs out h
    rw [runPatterns_eq_pure, runPatternsPure, List.foldlM_cons] at h
    cases hstep : applyPatternPure p segs with
    | none => rw [hstep] at h; cases h
    | some segs2 =>
      rw [hstep] at h
      have h2 : runPatterns ps segs2 = some out := by
        rw [runPatterns_eq_pure, runPatternsPure]
        exact h
      obtain ⟨pieces1, rfl, hall1⟩ := applyPatternPure_decomp p hstep
      obtain ⟨pieces2, rfl, hall2⟩ := ih h2
      obtain ⟨pieces, heq, hall⟩ := frozen_trans hall1 hall2
      exact ⟨pieces, heq, hall⟩

/-! ### Escaping and its reversal -/

/-- The fuel of the replacement scan is irrelevant once it covers the list. -/
theorem replaceSubAux_fuel (p0 : Char) (ps rep : List Char) :
    ∀ (fuel1 : Nat), ∀ (fuel2 : Nat) (l : List Char),
      l.length ≤ fuel1 → l.length ≤ fuel2 →
      replaceSubAux p0 ps rep fuel1 l = replaceSubAux p0 ps rep fuel2 l := by
  intro fuel1
  induction fuel1 with
  | zero =>
    intro fuel2 l h1 h2
    have : l = [] := List.eq_nil_of_length_eq_zero (by omega)
    subst this
    cases fuel2 <;> rfl
  | succ fuel1 ih =>
    intro fuel2 l h1 h2
    match l with
    | [] => cases fuel2 <;> rfl
    | c :: rest =>
      match fuel2 with
      | 0 => simp at h2
      | fuel2 + 1 =>
        rw [replaceSubAux, replaceSubAux]
        by_cases h : (p0 :: ps).isPrefixOf (c :: rest)
        · rw [if_pos h, if_pos h,
            ih fuel2 (rest.drop ps.length)
              (by simp only [List.length_drop, List.length_cons] at *; omega)
              (by simp only [List.length_drop, List.length_cons] at *; omega)]
        · rw [if_neg h, if_neg h,
            ih fuel2 rest (by simp at h1; omega) (by simp at h2; omega)]

/-- The one-step unfolding of the replacement scan on a nonempty list. -/
theorem replaceSub_cons (p0 : Char) (ps rep : List Char) (c : Char) (l : List Char) :
    replaceSub p0 ps rep (c :: l) =
      if (p0 :: ps).isPrefixOf (c :: l) then
        rep ++ replaceSub p0 ps rep (l.drop ps.length)
      else c :: replaceSub p0 ps rep l := by
  rw [replaceSub, List.length_cons, replaceSubAux]
  by_cases h : (p0 :: ps).isPrefixOf (c :: l)
  · rw [if_pos h, if_pos h, replaceSub,
      replaceSubAux_fuel p0 ps rep l.length (l.drop ps.length).length (l.drop ps.length)
        (by simp only [List.length_drop]; omega) (le_refl _)]
  · rw [if_neg h, if_neg h, replaceSub]

/-- A single-character global replacement acts independently on every
character. -/
theorem replaceSub_single (p0 : Char) (rep : List Char) :
    ∀ l : List Char, replaceSub p0 [] rep l =
      l.flatMap (fun c => if c = p0 then rep else [c]) := by
  intro l
  induction l with
  | nil => rfl
  | cons c l ih =>
    rw [replaceSub_cons, List.flatMap_cons]
    by_cases h : c = p0
    · subst h
      rw [if_pos (by simp [List.isPrefixOf]), if_pos rfl]
      simp [ih]
    · rw [if_neg (by simp [List.isPrefixOf]; exact fun hip => absurd hip.symm h),
        if_neg h]
      simp [ih]

theorem flatMap_comp (f g : Char → List Char) (l : List Char) :
    (l.flatMap f).flatMap g = l.flatMap (fun c => (f c).flatMap g) := by
  induction l with
  | nil => rfl
  | cons c l ih => simp [List.flatMap_cons, ih]

/-- Escaping acts independently on each input character. -/
theorem escapeHtml_flatMap (v : List Char) : escapeHtml v = v.flatMap escChar := by
  rw [escapeHtml, replaceSub_single '&' ampRep v]
  rw [replaceSub_single '<' ltRep, flatMap_comp]
  rw [replaceSub_single '>' gtRep, flatMap_comp]
  congr 1
  funext c
  by_cases h1 : c = '&'
  · subst h1; decide
  · by_cases h2 : c = '<'
    · subst h2; decide
    · by_cases h3 : c = '>'
      · subst h3; decide
      · simp [escChar, h1, h2, h3]

/-- Undoing the `>` escape on fully escaped text undoes exactly the spans
escaped from `>`, since every other `&` in escaped text is followed by
`amp;` or `lt;`. -/
theorem unescape_gt (v : List Char) :
    replaceSub '&' ['g', 't', ';'] ['>'] (v.flatMap escChar) =
      v.flatMap escCharAmpLt := by
  induction v with
  | nil => rfl
  | cons c v ih =>
    rw [List.flatMap_cons, List.flatMap_cons]
    by_cases h1 : c = '&'
    · subst h1
      simp [escChar, escCharAmpLt, ampRep, replaceSub_cons, List.isPrefixOf, ih]
    · by_cases h2 : c = '<'
      · subst h2
        simp [escChar, escCharAmpLt, ltRep, replaceSub_cons, List.isPrefixOf, ih]
      · by_cases h3 : c = '>'
        · subst h3
          simp [escChar, escCharAmpLt, gtRep, replaceSub_cons, List.isPrefixOf, ih]
        · have hb : ('&' == c) = false := beq_eq_false_iff_ne.mpr (Ne.symm h1)
          simp [escChar, escCharAmpLt, h1, h2, h3, replaceSub_cons,
            List.isPrefixOf, hb, ih]

/-- Undoing the `<` escape next undoes exactly the spans escaped from `<`. -/
theorem unescape_lt (v : List Char) :
    replaceSub '&' ['l', 't', ';'] ['<'] (v.flatMap escCharAmpLt) =
      v.flatMap escCharAmp := by
  induction v with
  | nil => rfl
  | cons c v ih =>
    rw [List.flatMap_cons, List.flatMap_cons]
    by_cases h1 : c = '&'
    · subst h1
      simp [escCharAmpLt, escCharAmp, ampRep, replaceSub_cons, List.isPrefixOf, ih]
    · by_cases h2 : c = '<'
      · subst h2
        simp [escCharAmpLt, escCharAmp, ltRep, replaceSub_cons, List.isPrefixOf, ih]
      · have hb : ('&' == c) = false := beq_eq_false_iff_ne.mpr (Ne.symm h1)
        simp [escCharAmpLt, escCharAmp, h1, h2, replaceSub_cons,
          List.isPrefixOf, hb, ih]

/-- Undoing the `&` escape last recovers the original text. -/
theorem unescape_amp (v : List Char) :
    replaceSub '&' ['a', 'm', 'p', ';'] ['&'] (v.flatMap escCharAmp) = v := by
  induction v with
  | nil => rfl
  | cons c v ih =>
    rw [List.flatMap_cons]
    by_cases h1 : c = '&'
    · subst h1
      simp [escCharAmp, ampRep, replaceSub_cons, List.isPrefixOf, ih]
    · have hb : ('&' == c) = false := beq_eq_false_iff_ne.mpr (Ne.symm h1)
      simp [escCharAmp, h1, replaceSub_cons, List.isPrefixOf, hb, ih]

/-- Escaping followed by the inverse substitutions, in inverse order, is the
identity on every string. -/
theorem unescape_escape (v : List Char) : unescapeHtml (escapeHtml v) = v := by
  rw [escapeHtml_flatMap, unescapeHtml, unescape_gt, unescape_lt, unescape_amp]

/-! ### Termination and divergence of the scanning loop -/

/-- The exec loop with its canonical fuel completes for a rule that can never
match the empty string. -/
theorem execMatches_isSome {f : List Char → Nat → Option (Nat × Nat)}
    (hf : RegexWF f) (s : List Char) : (execMatches f s).isSome :=
  execLoopAux_isSome hf.1 hf.2 s (s.length + 1) 0 (Nat.zero_le _) (by omega)

theorem expandSeg_isSome {p : Pattern} (hf : RegexWF p.regex) (seg : Segment) :
    (expandSeg p seg).isSome := by
  rw [expandSeg]
  by_cases hty : seg.type = "plain"
  · rw [if_neg (by simp [hty])]
    have hsome := execMatches_isSome hf seg.text
    cases hms : execMatches p.regex seg.text with
    | none => rw [hms] at hsome; cases hsome
    | some ms => match ms with
      | [] => rfl
      | m :: ms => rfl
  · rw [if_pos hty]
    rfl

theorem applyPatternPure_isSome {p : Pattern} (hf : RegexWF p.regex) :
    ∀ segs : List Segment, (applyPatternPure p segs).isSome := by
  intro segs
  induction segs with
  | nil => rfl
  | cons seg rest ih =>
    rw [applyPatternPure]
    have h1 := expandSeg_isSome hf seg
    cases hexp : expandSeg p seg with
    | none => rw [hexp] at h1; cases h1
    | some l =>
      cases hrest : applyPatternPure p rest with
      | none => rw [hrest] at ih; cases ih
      | some r => rfl

/-- The full pass terminates whenever no rule can match the empty string. -/
theorem runPatterns_isSome :
    ∀ {ps : List Pattern}, (∀ p ∈ ps, RegexWF p.regex) →
    ∀ segs : List Segment, (runPatterns ps segs).isSome := by
  intro ps
  induction ps with
  | nil => intro _ segs; rfl
  | cons p ps ih =>
    intro hwf segs
    rw [runPatterns_eq_pure, runPatternsPure, List.foldlM_cons]
    have h1 := applyPatternPure_isSome (hwf p (List.mem_cons_self p ps)) segs
    cases hstep : applyPatternPure p segs with
    | none => rw [hstep] at h1; cases h1
    | some segs2 =>
      have := ih (fun q hq => hwf q (List.mem_cons_of_mem p hq)) segs2
      rw [runPatterns_eq_pure, runPatternsPure] at this
      simpa using this

/-- The zero-width rule makes the collection loop run forever on any
string. -/
theorem emptyFind_diverges (s : List Char) : execDiverges emptyFind s := by
  intro fuel
  induction fuel with
  | zero => rfl
  | succ fuel ih =>
    rw [execLoopAux]
    have : emptyFind s 0 = some (0, 0) := by simp [emptyFind]
    rw [this]
    simp [ih]

/-! ### No output segment is ever empty -/

theorem buildRepl_nonempty (s : List Char) (ty : String) :
    ∀ (ms : List (Nat × Nat)) (cursor : Nat), Chained s.length cursor ms →
      (∀ m ∈ ms, 1 ≤ m.2) →
      ∀ seg ∈ buildRepl s ty ms cursor, seg.text ≠ [] := by
  intro ms
  induction ms with
  | nil =>
    intro cursor hch _ seg hseg
    rw [buildRepl] at hseg
    by_cases h : cursor < s.length
    · rw [if_pos h] at hseg
      rcases List.mem_singleton.mp hseg with rfl
      apply List.ne_nil_of_length_pos
      show 0 < (listSlice s cursor s.length).length
      rw [listSlice_length]
      omega
    · rw [if_neg h] at hseg
      cases hseg
  | cons m ms ih =>
    intro cursor hch hpos seg hseg
    obtain ⟨st, len⟩ := m
    obtain ⟨h1, h2, h3⟩ := hch
    have hlen : 1 ≤ len := hpos (st, len) (List.mem_cons_self _ _)
    rw [buildRepl] at hseg
    rcases List.mem_append.mp hseg with hfront | hrest
    · by_cases h : cursor < st
      · rw [if_pos h] at hfront
        rcases List.mem_singleton.mp hfront with rfl
        apply List.ne_nil_of_length_pos
        show 0 < (listSlice s cursor st).length
        rw [listSlice_length]
        omega
      · rw [if_neg h] at hfront
        cases hfront
    · rcases List.mem_cons.mp hrest with rfl | htail
      · apply List.ne_nil_of_length_pos
        show 0 < (listSlice s st (st + len)).length
        rw [listSlice_length]
        omega
      · exact ih (st + len) h3 (fun x hx => hpos x (List.mem_cons_of_mem _ hx)) seg htail

theorem expandSeg_nonempty {p : Pattern} (hf : RegexWF p.regex)
    {seg : Segment} (hne : seg.text ≠ []) {out : List Segment}
    (h : expandSeg p seg = some out) : ∀ x ∈ out, x.text ≠ [] := by
  rw [expandSeg] at h
  by_cases hty : seg.type = "plain"
  · rw [if_neg (by simp [hty])] at h
    cases hms : execMatches p.regex seg.text with
    | none => rw [hms] at h; cases h
    | some ms =>
      rw [hms] at h
      match ms, h with
      | [], h =>
        cases h
        intro x hx
        rcases List.mem_singleton.mp hx with rfl
        exact hne
      | m :: ms, h =>
        cases h
        exact buildRepl_nonempty seg.text p.type (m :: ms) 0
          (execLoopAux_chained hf.1 seg.text _ 0 _ (Nat.zero_le _) hms)
          (execLoopAux_progress hf.2 seg.text _ 0 _ hms)
  · rw [if_pos hty] at h
    cases h
    intro x hx
    rcases List.mem_singleton.mp hx with rfl
    exact hne

theorem applyPatternPure_nonempty {p : Pattern} (hf : RegexWF p.regex) :
    ∀ {segs out : List Segment}, (∀ seg ∈ segs, seg.text ≠ []) →
      applyPatternPure p segs = some out → ∀ x ∈ out, x.text ≠ [] := by
  intro segs
  induction segs with
  | nil => intro out _ h; cases h; intro x hx; cases hx
  | cons seg rest ih =>
    intro out hne h
    rw [applyPatternPure] at h
    cases hexp : expandSeg p seg with
    | none => rw [hexp] at h; cases h
    | some l =>
      rw [hexp] at h
      cases hrest : applyPatternPure p rest with
      | none => rw [hrest] at h; cases h
      | some r =>
        rw [hrest] at h
        cases h
        intro x hx
        rcases List.mem_append.mp hx with hx | hx
        · exact expandSeg_nonempty hf (hne seg (List.mem_cons_self _ _)) hexp x hx
        · exact ih (fun y hy => hne y (List.mem_cons_of_mem _ hy)) hrest x hx

/-- No rule pass ever creates an empty-text segment: if every rule is
well-formed and every working segment is nonempty, the final segments are all
nonempty. -/
theorem runPatterns_nonempty :
    ∀ {ps : List Pattern}, (∀ p ∈ ps, RegexWF p.regex) →
    ∀ {segs out : List Segment}, (∀ seg ∈ segs, seg.text ≠ []) →
      runPatterns ps segs = some out → ∀ x ∈ out, x.text ≠ [] := by
  intro ps
  induction ps with
  | nil => intro _ segs out hne h; cases h; exact hne
  | cons p ps ih =>
    intro hwf segs out hne h
    rw [runPatterns_eq_pure, runPatternsPure, List.foldlM_cons] at h
    cases hstep : applyPatternPure p segs with
    | none => rw [hstep] at h; cases h
    | some segs2 =>
      rw [hstep] at h
      have h2 : runPatterns ps segs2 = some out := by
        rw [runPatterns_eq_pure, runPatternsPure]
        exact h
      exact ih (fun q hq => hwf q (List.mem_cons_of_mem p hq))
        (applyPatternPure_nonempty (hwf p (List.mem_cons_self p ps)) hne hstep) h2

/-! ### The built-in rules are well-formed regexes -/

/-- The characters of one list standing at the head of another are no more
numerous than the characters of the latter. -/
theorem isPrefixOf_len_le : ∀ (l1 l2 : List Char), l1.isPrefixOf l2 = true →
    l1.length ≤ l2.length
  | [], l2, _ => by simp
  | a :: l1, [], h => by simp [List.isPrefixOf] at h
  | a :: l1, b :: l2, h => by
    simp only [List.isPrefixOf, Bool.and_eq_true] at h
    have := isPrefixOf_len_le l1 l2 h.2
    simp only [List.length_cons]
    omega

theorem scanFindAux_some {att : Nat → Option Nat} :
    ∀ (r i st k : Nat), scanFindAux att i r = some (st, k) →
      i ≤ st ∧ att st = some k := by
  intro r
  induction r with
  | zero => intro i st k h; cases h
  | succ r ih =>
    intro i st k h
    rw [scanFindAux] at h
    cases hatt : att i with
    | some k2 =>
      rw [hatt] at h
      cases h
      exact ⟨le_refl _, hatt⟩
    | none =>
      rw [hatt] at h
      obtain ⟨h1, h2⟩ := ih (i + 1) st k h
      exact ⟨by omega, h2⟩

theorem findOf_wf {att : List Char → Nat → Option Nat} (h : AttemptWF att) :
    RegexWF (findOf att) := by
  constructor
  · intro s li st len hf
    rw [findOf] at hf
    obtain ⟨h1, h2⟩ := scanFindAux_some _ li st len hf
    obtain ⟨h3, _⟩ := h s st len h2
    exact ⟨h1, h3⟩
  · intro s li st len hf
    rw [findOf] at hf
    obtain ⟨_, h2⟩ := scanFindAux_some _ li st len hf
    exact (h s st len h2).2

theorem closeIdx_le : ∀ (l : List Char) (k : Nat), closeIdx l = some k → k + 2 ≤ l.length := by
  intro l
  induction l using closeIdx.induct with
  | case1 rest => intro k h; cases h; simp
  | case2 c rest hne ih =>
    intro k h
    rw [closeIdx] at h
    · obtain ⟨k2, hk2, rfl⟩ := Option.map_eq_some'.mp h
      have := ih k2 hk2
      simp only [List.length_cons]
      omega
    · exact hne
  | case3 => intro k h; cases h

theorem stringBody_le (q : Char) : ∀ (l : List Char) (b : Nat),
    stringBody q l = some b → b + 1 ≤ l.length := by
  intro l
  induction l using stringBody.induct q with
  | case1 c rest hnl ih =>
    intro b h
    rw [stringBody, if_pos hnl] at h
    obtain ⟨b2, hb2, rfl⟩ := Option.map_eq_some'.mp h
    have := ih b2 hb2
    simp only [List.length_cons]
    omega
  | case2 c rest hnl =>
    intro b h
    rw [stringBody, if_neg hnl] at h
    cases h
  | case3 c rest hne hq =>
    intro b h
    rw [stringBody] at h
    rotate_left
    · exact hne
    rw [if_pos hq] at h
    cases h
    simp
  | case4 c rest hne hq hbs =>
    intro b h
    rw [stringBody] at h
    rotate_left
    · exact hne
    rw [if_neg hq, if_pos hbs] at h
    cases h
  | case5 c rest hne hq hbs ih =>
    intro b h
    rw [stringBody] at h
    rotate_left
    · exact hne
    rw [if_neg hq, if_neg hbs] at h
    obtain ⟨b2, hb2, rfl⟩ := Option.map_eq_some'.mp h
    have := ih b2 hb2
    simp only [List.length_cons]
    omega
  | case6 =>
    intro b h
    cases h

theorem takeWhile_len_le (p : Char → Bool) (l : List Char) :
    (l.takeWhile p).length ≤ l.length := by
  induction l with
  | nil => simp
  | cons c l ih =>
    rw [List.takeWhile_cons]
    cases hpc : p c <;> simp [hpc]
    omega

theorem commentAttempt_wf : AttemptWF commentAttempt := by
  intro s i k h
  rw [commentAttempt] at h
  split at h
  · rename_i rest heq
    split at h
    · rename_i k2 hclose
      cases h
      have hlen : s.length - i = rest.length + 2 := by
        have := congrArg List.length heq
        simpa using this
      have := closeIdx_le rest k2 hclose
      constructor <;> omega
    · cases h
  · rename_i rest heq
    cases h
    have hlen : s.length - i = rest.length + 2 := by
      have := congrArg List.length heq
      simpa using this
    have htw : (rest.takeWhile notLineTerm).length ≤ rest.length :=
      takeWhile_len_le _ _
    constructor <;> omega
  · cases h

theorem stringAttempt_wf : AttemptWF stringAttempt := by
  intro s i k h
  rw [stringAttempt] at h
  split at h
  · rename_i c rest heq
    split at h
    · obtain ⟨b, hb, rfl⟩ := Option.map_eq_some'.mp h
      have hlen : s.length - i = rest.length + 1 := by
        have := congrArg List.length heq
        simpa using this
      have := stringBody_le c rest b hb
      constructor <;> omega
    · cases h
  · cases h

theorem numberAttempt_wf : AttemptWF numberAttempt := by
  intro s i k h
  simp only [numberAttempt] at h
  split at h
  · cases h
  · split at h
    · cases h
    · rename_i hd0
      have hdle : ((s.drop i).takeWhile Char.isDigit).length ≤ s.length - i := by
        have h1 : ((s.drop i).takeWhile Char.isDigit).length ≤ (s.drop i).length :=
          takeWhile_len_le _ _
        simpa using h1
      split at h
      · rename_i a2 heq
        have hlen : s.length - (i + ((s.drop i).takeWhile Char.isDigit).length) =
            a2.length + 1 := by
          have := congrArg List.length heq
          simpa using this
        split at h
        · cases h
          constructor <;> omega
        · split at h
          · cases h
            constructor <;> omega
          · cases h
            have hd2 : (a2.takeWhile Char.isDigit).length ≤ a2.length :=
              takeWhile_len_le _ _
            constructor <;> omega
      · split at h
        · cases h
        · cases h
          constructor <;> omega

theorem wordListAttempt_wf (ws : List (List Char)) (hws : ∀ w ∈ ws, w ≠ []) :
    AttemptWF (wordListAttempt ws) := by
  intro s i k h
  rw [wordListAttempt] at h
  split at h
  · cases h
  · split at h
    · rename_i w hfind
      cases h
      have hp := List.find?_some hfind
      have hmem := List.mem_of_find?_eq_some hfind
      simp only [Bool.and_eq_true] at hp
      have hlen : w.length ≤ s.length - i := by
        have := isPrefixOf_len_le w (s.drop i) hp.1
        simpa using this
      have hone : 1 ≤ w.length := List.length_pos.mpr (hws w hmem)
      constructor <;> omega
    · cases h

theorem decoratorAttempt_wf : AttemptWF decoratorAttempt := by
  intro s i k h
  rw [decoratorAttempt] at h
  split at h
  · rename_i c rest heq
    split at h
    · cases h
      have hlen : s.length - i = rest.length + 2 := by
        have := congrArg List.length heq
        simpa using this
      have htw : (rest.takeWhile isWordChar).length ≤ rest.length :=
        takeWhile_len_le _ _
      constructor <;> omega
    · cases h
  · cases h

theorem classAttempt_wf : AttemptWF classAttempt := by
  intro s i k h
  rw [classAttempt] at h
  split at h
  · cases h
  · split at h
    · rename_i c rest heq
      split at h
      · cases h
        have hlen : s.length - i = rest.length + 1 := by
          have := congrArg List.length heq
          simpa using this
        have htw : (rest.takeWhile isWordChar).length ≤ rest.length :=
          takeWhile_len_le _ _
        constructor <;> omega
      · cases h
    · cases h

theorem keywordWords_ne : ∀ w ∈ keywordWords, w ≠ [] := by decide

theorem typeWords_ne : ∀ w ∈ typeWords, w ≠ [] := by decide

theorem literalWords_ne : ∀ w ∈ literalWords, w ≠ [] := by decide

/-- Every built-in rule of `highlightPatterns` is a well-formed regex: its
matches sit inside the string, start at or after `lastIndex`, and are never
empty. -/
theorem highlightPatterns_wf : ∀ p ∈ highlightPatterns, RegexWF p.regex := by
  intro p hp
  simp only [highlightPatterns, List.mem_cons, List.not_mem_nil, or_false] at hp
  rcases hp with rfl | rfl | rfl | rfl | rfl | rfl | rfl | rfl
  · exact findOf_wf commentAttempt_wf
  · exact findOf_wf stringAttempt_wf
  · exact findOf_wf numberAttempt_wf
  · exact findOf_wf (wordListAttempt_wf keywordWords keywordWords_ne)
  · exact findOf_wf (wordListAttempt_wf typeWords typeWords_ne)
  · exact findOf_wf (wordListAttempt_wf literalWords literalWords_ne)
  · exact findOf_wf decoratorAttempt_wf
  · exact findOf_wf classAttempt_wf

/-! ### The claims -/

/-- C1: for every input string and every rule set whose patterns give the
positional guarantees of real regexes, concatenating the texts of all output
segments, in their output order, equals the input string exactly — no
character dropped, duplicated, or reordered. -/
theorem C1_coverage (ps : List Pattern) (code : List Char)
    (hwf : ∀ p ∈ ps, RegexBounds p.regex) (out : List Segment)
    (h : runPatterns ps [⟨code, "plain"⟩] = some out) :
    (out.map Segment.text).flatten = code := by
  rw [runPatterns_text hwf h]
  simp

theorem C1_coverage_witness :
    (([⟨"const".toList, "keyword"⟩, ⟨" x = ".toList, "plain"⟩,
       ⟨"1".toList, "number"⟩, ⟨"; ".toList, "plain"⟩,
       ⟨"// done".toList, "comment"⟩] : List Segment).map
        Segment.text).flatten = "const x = 1; // done".toList :=
  C1_coverage highlightPatterns _ (fun p hp => (highlightPatterns_wf p hp).1) _
    (by decide)

/-- C2: a span claimed by a non-plain category is frozen: running any list of
later rules refines the working sequence segment by segment, and every
non-plain segment is refined into exactly itself — it is never re-scanned,
split, or relabeled, so no later category ever appears inside it. -/
theorem C2_freeze (ps : List Pattern) (segs out : List Segment)
    (h : runPatterns ps segs = some out) :
    ∃ pieces : List (List Segment), out = pieces.flatten ∧
      List.Forall₂ FrozenPiece segs pieces :=
  runPatterns_decomp h

theorem C2_freeze_witness :
    ∃ pieces : List (List Segment),
      [(⟨"\x22const\x22".toList, "string"⟩ : Segment)] = pieces.flatten ∧
        List.Forall₂ FrozenPiece [⟨"\x22const\x22".toList, "string"⟩] pieces :=
  C2_freeze [⟨findOf (wordListAttempt keywordWords), "keyword"⟩]
    [⟨"\x22const\x22".toList, "string"⟩] _ (by decide)

/-- C3, as stated, is false on the code: the exec collection loop does not
treat a zero-width match as non-matching.  A rule whose regex matches the
empty string everywhere (such as `/(?:)/g`) leaves `lastIndex` in place, the
collection loop never terminates on input "a" no matter how much fuel it is
given, and the whole pass diverges (`none` in this model). -/
theorem C3_zero_width_cex :
    execDiverges emptyFind ['a'] ∧
      runPatterns [emptyPat] [⟨['a'], "plain"⟩] = none :=
  ⟨emptyFind_diverges ['a'], by decide⟩

/-- C3 amended: for every input string and every rule set whose rules respect
positions and never report a zero-width match — which holds for all built-in
rules — the tokenizer terminates. -/
theorem C3_termination (ps : List Pattern) (code : List Char)
    (hwf : ∀ p ∈ ps, RegexWF p.regex) :
    (runPatterns ps [⟨code, "plain"⟩]).isSome :=
  runPatterns_isSome hwf _

theorem C3_termination_witness :
    (runPatterns highlightPatterns
      [⟨"const x = 1; // done".toList, "plain"⟩]).isSome :=
  C3_termination highlightPatterns _ highlightPatterns_wf

/-- C4: with the built-in rule set, tokenizing "const x = 1; // done" yields
exactly the five segments keyword/plain/number/plain/comment, in order. -/
theorem C4_concrete :
    highlightSegments "const x = 1; // done".toList =
      some [⟨"const".toList, "keyword"⟩, ⟨" x = ".toList, "plain"⟩,
        ⟨"1".toList, "number"⟩, ⟨"; ".toList, "plain"⟩,
        ⟨"// done".toList, "comment"⟩] := by decide

/-- C5: the rendering phase escapes each segment's text (& to &amp;, < to
&lt;, > to &gt;) independently of its category, changing neither the segment
boundaries nor the categories, and an input containing `<script>` renders as
the escaped `&lt;script&gt;`. -/
theorem C5_escaped_render :
    (∀ (code : List Char) (segs : List Segment),
      highlightSegments code = some segs →
      highlightTypeScript code =
        some ((segs.map fun seg => wrapTok seg.type (escapeHtml seg.text)).flatten)) ∧
      highlightTypeScript "<script>".toList = some "&lt;script&gt;".toList := by
  refine ⟨fun code segs h => ?_, by decide⟩
  rw [highlightTypeScript, h]
  rfl

theorem C5_escaped_render_witness :
    highlightTypeScript "MyClass".toList =
      some ((([⟨"MyClass".toList, "class"⟩] : List Segment).map
        fun seg => wrapTok seg.type (escapeHtml seg.text)).flatten) :=
  C5_escaped_render.1 "MyClass".toList _ (by decide)

/-- C6: escaping followed by the inverse substitutions, applied in the order
inverse to escaping, recovers every string exactly. -/
theorem C6_escape_roundtrip (v : List Char) : unescapeHtml (escapeHtml v) = v :=
  unescape_escape v

/-- C7: with the built-in rule set, "MyClass" — matched by no earlier rule —
is a single `class` segment covering the whole input, claimed by the
capitalized-identifier rule that runs last. -/
theorem C7_class :
    highlightSegments "MyClass".toList = some [⟨"MyClass".toList, "class"⟩] := by
  decide

/-- C8: the empty input yields the single empty plain segment, and renders to
the empty string. -/
theorem C8_empty :
    highlightSegments [] = some [⟨[], "plain"⟩] ∧
      highlightTypeScript [] = some [] := by
  exact ⟨by decide, by decide⟩

/-- C9: the pure reformulation that builds a fresh output list per rule
application is equivalent to the source's in-place splicing of the working
array: they produce identical segment sequences for every input and rule
set. -/
theorem C9_pure_refinement (ps : List Pattern) (code : List Char) :
    runPatterns ps [⟨code, "plain"⟩] = runPatternsPure ps [⟨code, "plain"⟩] :=
  runPatterns_eq_pure ps _

/-- C10: tokenizing a non-empty input with the built-in rule set never
produces an empty-text segment. -/
theorem C10_no_empty_segment (code : List Char) (hne : code ≠ [])
    (segs : List Segment) (h : highlightSegments code = some segs) :
    ∀ seg ∈ segs, seg.text ≠ [] := by
  rw [highlightSegments] at h
  refine runPatterns_nonempty highlightPatterns_wf ?_ h
  intro seg hseg
  rcases List.mem_singleton.mp hseg with rfl
  exact hne

theorem C10_no_empty_segment_witness :
    (⟨"MyClass".toList, "class"⟩ : Segment).text ≠ [] :=
  C10_no_empty_segment "MyClass".toList (by decide)
    [⟨"MyClass".toList, "class"⟩] (by decide)
    ⟨"MyClass".toList, "class"⟩ (by decide)

end HL
